import Mathlib

/-!
# Verification of `src/generic/mem_allocation/ffrbll_replay.py`

A shallow embedding of the core of the allocation-replay visualiser:

* `parse_events`   — embeds `parse_events` (lines 10-26): one event per line
  matching the regular expression pattern sign, space, signed integer, space,
  signed integer; non-matching lines are skipped.
* `calc_bounds`    — embeds `calc_bounds` (lines 29-45).
* `gridWidth`, `gridHeight`, `gridPadding` — embed the layout computation of
  `replay_iterate` (lines 66-68).
* `applyEvent`     — embeds the occupancy update `allocated_dma[offset -
  bounds[0] : offset + size - bounds[0]] += 1 if mode == "+" else -1`
  (line 87), including Python/numpy slice normalisation of negative and
  out-of-range endpoints.
* `renderImage`    — embeds the colour classification of lines 80-97.
* `replayFrames`   — embeds the per-event frame loop of `replay_iterate`
  (lines 57-160), producing the logical (pre-magnification) pixel grid and
  the semantic content of the three annotation text fields of each frame.

Python strings are modelled as `List Char` (a Python `str` is a sequence of
code points).  Machine-independent Python integers are modelled as `Int`.
-/

/-- One parsed replay event: the tuple `(mode, offset, size)` returned by
`parse_events`.  `mode` is the single captured sign character `+` or `-`. -/
structure Event where
  mode : Char
  offset : Int
  size : Int
deriving DecidableEq

/-- Split a character list at every occurrence of `sep`, like Python
`str.split(sep)` for a single-character separator: `n` separators yield
`n + 1` (possibly empty) pieces.  Used with `sep = newline` to model the
`re.MULTILINE` line structure and with `sep = space` to model the literal
spaces of the pattern. -/
def splitOnChar (sep : Char) : List Char → List (List Char)
  | [] => [[]]
  | c :: rest =>
    if c = sep then [] :: splitOnChar sep rest
    else
      match splitOnChar sep rest with
      | [] => [[c]]
      | l :: ls => (c :: l) :: ls

/-- Value of a nonempty all-digit character run, the semantics of a match of
one or more digits followed by Python `int`. -/
def readNat (cs : List Char) : Option Nat :=
  if cs.isEmpty then none
  else if cs.all Char.isDigit then
    some (cs.foldl (fun a c => 10 * a + (c.toNat - 48)) 0)
  else none

/-- Semantics of a match of an optional minus sign and one or more digits,
followed by Python `int`. -/
def readInt (cs : List Char) : Option Int :=
  match cs with
  | '-' :: rest => (readNat rest).map (fun n => -(n : Int))
  | _ => (readNat cs).map (fun n => (n : Int))

/-- Whether one line matches the anchored pattern of `parse_events`
(line 22): a sign character, a space, a signed integer, a space, a signed
integer — and if so, the resulting event. -/
def parseLine (l : List Char) : Option Event :=
  match splitOnChar ' ' l with
  | [m, a, b] =>
    match m with
    | [mc] =>
      if mc = '+' ∨ mc = '-' then
        (readInt a).bind (fun o => (readInt b).map (fun s => ⟨mc, o, s⟩))
      else none
    | _ => none
  | _ => none

/-- Embeds `parse_events` (lines 10-26): `re.findall` with `re.MULTILINE`
and a `^...$`-anchored pattern returns, in input order, one match per line
that matches the pattern in full; non-matching lines are skipped. -/
def parse_events (cs : List Char) : List Event :=
  (splitOnChar '\n' cs).filterMap parseLine

/-- Join lines with newline separators (inverse of line splitting for
newline-free lines); used to state per-line properties of `parse_events`. -/
def joinLines : List (List Char) → List Char
  | [] => []
  | [l] => l
  | l :: l2 :: ls => l ++ '\n' :: joinLines (l2 :: ls)

example : parse_events ("+ 10 20\n- 5 abc".data) = [⟨'+', 10, 20⟩] := by decide
example : parse_events ("+ -3 4\nx\n- 7 -2".data) = [⟨'+', -3, 4⟩, ⟨'-', 7, -2⟩] := by decide
example : parse_events ("+  1 2\n+ 1 2 \n".data) = [] := by decide

/-- One step of the min/max accumulation loop of `calc_bounds`
(lines 40-44). -/
def boundsStep (b : Int × Int) (ev : Event) : Int × Int :=
  (min b.1 ev.offset, max b.2 (ev.offset + ev.size))

/-- Embeds `calc_bounds` (lines 29-45): the minimum `offset` and the maximum
`offset + size` over all events.  The source initialises the accumulators
with float infinities, which the first event always replaces; on an empty
list the source would return the two infinities, a case `replay_iterate`
never reaches (it returns before calling `calc_bounds` when there are no
events), modelled here as `none`. -/
def calc_bounds : List Event → Option (Int × Int)
  | [] => none
  | e :: es => some (es.foldl boundsStep (e.offset, e.offset + e.size))

/-- Least `k` with `s ≤ k * k`, scanning upwards from `k`; `fuel` bounds the
recursion and always suffices because `s ≤ s * s`. -/
def ceilSqrtGo (s : Nat) : Nat → Nat → Nat
  | k, 0 => k
  | k, fuel + 1 => if s ≤ k * k then k else ceilSqrtGo s (k + 1) fuel

/-- Ceiling of the square root: the least `k` with `s ≤ k * k`.  Models
`int(ceil(allocations_size**0.5))` of line 66 (exact real square root;
the double-precision computation of the source agrees on its working
range). -/
def ceilSqrt (s : Nat) : Nat :=
  ceilSqrtGo s 0 s

/-- Embeds `width = max(32, int(ceil(allocations_size**0.5)))` (line 66). -/
def gridWidth (s : Nat) : Nat :=
  max 32 (ceilSqrt s)

/-- Embeds `height = int(ceil(allocations_size/width))` (line 67) as the
ceiling division of `s` by `gridWidth s`. -/
def gridHeight (s : Nat) : Nat :=
  (s + gridWidth s - 1) / gridWidth s

/-- Embeds `padding_pixels = width*height - allocations_size` (line 68). -/
def gridPadding (s : Nat) : Nat :=
  gridWidth s * gridHeight s - s

/-- Python slice-endpoint normalisation for an array of length `len`: a
negative endpoint counts from the end (clamped below at 0), a non-negative
endpoint is clamped above at `len`.  This is the numpy basic-slicing rule
applied to the endpoints of line 87. -/
def sliceIdx (len : Nat) (i : Int) : Nat :=
  if i < 0 then (len + i).toNat else min i.toNat len

/-- The delta each covered counter receives: `+= 1 if mode == "+" else -1`
(line 87). -/
def eventDelta (e : Event) : Int :=
  if e.mode = '+' then 1 else -1

/-- The set of linear indices of an array of length `len` written by the
slice assignment of line 87 for event `e`, with `minOff` the first bound. -/
def eventTouches (len : Nat) (minOff : Int) (e : Event) (k : Nat) : Prop :=
  sliceIdx len (e.offset - minOff) ≤ k ∧
    k < sliceIdx len (e.offset + e.size - minOff)

instance (len : Nat) (minOff : Int) (e : Event) (k : Nat) :
    Decidable (eventTouches len minOff e k) := by
  unfold eventTouches; infer_instance

/-- Add `delta` to every element whose position (counted from `k`) lies in
the normalised index interval from `lo` inclusive to `hi` exclusive. -/
def applyFrom (delta : Int) (lo hi : Nat) : Nat → List Int → List Int
  | _, [] => []
  | k, c :: rest =>
    (if lo ≤ k ∧ k < hi then c + delta else c) :: applyFrom delta lo hi (k + 1) rest

/-- Embeds the occupancy update of line 87: `allocated_dma[offset -
bounds[0] : offset + size - bounds[0]] += 1 if mode == "+" else -1`, on the
linear view of the whole `width × height` grid. -/
def applyEvent (minOff : Int) (e : Event) (grid : List Int) : List Int :=
  applyFrom (eventDelta e)
    (sliceIdx grid.length (e.offset - minOff))
    (sliceIdx grid.length (e.offset + e.size - minOff)) 0 grid

/-- Mid-gray background value `(190, 190, 190)` (line 80), the colour of
padding cells. -/
def background : Nat × Nat × Nat := (190, 190, 190)

/-- `used_colour = (25, 25, 127)` (line 81), the base colour of every
non-padding cell before the masks are applied, i.e. of counters 0. -/
def used_colour : Nat × Nat × Nat := (25, 25, 127)

/-- `free_colour = (24, 190, 24)` (line 82), assigned to counters equal 1. -/
def free_colour : Nat × Nat × Nat := (24, 190, 24)

/-- `invalid_colour = (255, 0, 0)` (line 83), assigned to counters below 0
or above 1. -/
def invalid_colour : Nat × Nat × Nat := (255, 0, 0)

/-- Colour of one logical grid cell (lines 89-97): the image starts as
`used_colour`, the trailing padding positions are overwritten with the
background, then cells with counter 1 receive `free_colour` and cells with
counter below 0 or above 1 receive `invalid_colour`. -/
def renderPixel (padded : Bool) (c : Int) : Nat × Nat × Nat :=
  let base := if padded then background else used_colour
  let p1 := if c = 1 then free_colour else base
  if c < 0 ∨ 1 < c then invalid_colour else p1

/-- Indexed rendering loop: position `k + j` for the `j`-th element. -/
def renderFrom (w h padding : Nat) : Nat → List Int → List (Nat × Nat × Nat)
  | _, [] => []
  | k, c :: rest =>
    renderPixel (decide (0 < padding ∧ w * h - padding ≤ k)) c ::
      renderFrom w h padding (k + 1) rest

/-- Embeds lines 89-97: the logical (pre-magnification) pixel row-major
image of one frame.  The guard `0 < padding` models `if padding_pixels:`
(line 93). -/
def renderImage (w h padding : Nat) (grid : List Int) : List (Nat × Nat × Nat) :=
  renderFrom w h padding 0 grid

/-- Embeds `is_free.sum()` (line 103): the number of grid cells (padding
included) whose counter equals 1. -/
def countFree (grid : List Int) : Nat :=
  grid.countP (fun c => c == 1)

/-- The semantic content of one yielded frame: the occupancy snapshot, the
logical pixel grid, and the data of the three annotation texts — the event
index (line 102), the numerator and denominator of the Free percentage
(line 103), and the operation description (lines 104-108) as its label,
offset and size. -/
structure Frame where
  eventIdx : Nat
  occ : List Int
  image : List (Nat × Nat × Nat)
  freeNum : Nat
  freeDen : Nat
  opLabel : List Char
  opOffset : Int
  opSize : Int
deriving DecidableEq

/-- Build the frame yielded for event `e` at position `idx` once the grid
already holds the updated counters (lines 89-160). -/
def mkFrame (w h s idx : Nat) (e : Event) (grid : List Int) : Frame :=
  { eventIdx := idx
    occ := grid
    image := renderImage w h (w * h - s) grid
    freeNum := countFree grid
    freeDen := s
    opLabel := if e.mode = '+' then "free ".data else "alloc".data
    opOffset := e.offset
    opSize := e.size }

/-- The event loop of `replay_iterate` (lines 85-160): apply each event to
the shared grid, then emit the frame for the updated grid. -/
def runEvents (w h s : Nat) (minOff : Int) : Nat → List Int → List Event → List Frame
  | _, _, [] => []
  | idx, grid, e :: es =>
    let grid1 := applyEvent minOff e grid
    mkFrame w h s idx e grid1 :: runEvents w h s minOff (idx + 1) grid1 es

/-- The frame sequence produced for a parsed event list (lines 57-160).
With no events the source returns before building anything (line 59-60):
zero frames.  With a negative `allocations_size` (possible with negative
sizes) `allocations_size**0.5` is a complex number in Python 3 and
`ceil` of it raises `TypeError` before any frame is yielded: modelled as
`none`.  Otherwise the grid of `width * height` zero counters is created
and every event yields one frame. -/
def replayAux (events : List Event) : Option (List Frame) :=
  match calc_bounds events with
  | none => some []
  | some (lo, hi) =>
    if hi - lo < 0 then none
    else
      let s := (hi - lo).toNat
      let w := gridWidth s
      let h := gridHeight s
      some (runEvents w h s lo 0 (List.replicate (w * h) 0) events)

/-- Embeds `replay_iterate` (lines 48-172) end to end, from the raw replay
file contents. -/
def replayFrames (cs : List Char) : Option (List Frame) :=
  replayAux (parse_events cs)

/-- The produced frame list, empty when the run raises. -/
def framesOf (cs : List Char) : List Frame :=
  (replayFrames cs).getD []

/-- Placeholder frame for total indexing of frame lists. -/
def dummyFrame : Frame :=
  ⟨0, [], [], 0, 0, [], 0, 0⟩

/-- The `i`-th produced frame. -/
def frameAt (cs : List Char) (i : Nat) : Frame :=
  (framesOf cs).getD i dummyFrame

/-- The Free fraction reported by the `i`-th frame, as the exact rational
value of `is_free.sum() / allocations_size` (line 103). -/
def freeFracAt (cs : List Char) (i : Nat) : Rat :=
  ((frameAt cs i).freeNum : Rat) / ((frameAt cs i).freeDen : Rat)

example : calc_bounds [⟨'+', 0, 10⟩, ⟨'+', 20, 5⟩] = some (0, 25) := by decide
example : gridWidth 10 = 32 ∧ gridHeight 10 = 1 := by decide
example : (framesOf ("+ 0 1".data)).length = 1 := by decide
example : (frameAt ("+ 0 1".data) 0).occ.take 2 = [1, 0] := by decide
example : (frameAt ("+ 0 1".data) 0).image.take 2 = [free_colour, background] := by decide
example : (frameAt ("+ 0 2".data) 0).image.take 2 = [free_colour, free_colour] := by decide
example : replayFrames ("+ 0 -5".data) = none := by decide
example : (frameAt ("+ 5 0".data) 0).freeDen = 0 := by decide
example : freeFracAt ("+ 0 10".data) 0 = 1 := by
  have h1 : (frameAt ("+ 0 10".data) 0).freeNum = 10 := by decide
  have h2 : (frameAt ("+ 0 10".data) 0).freeDen = 10 := by decide
  unfold freeFracAt
  rw [h1, h2]
  norm_num
example : (frameAt ("+ 0 10\n+ 5 -20".data) 1).occ.get? 10 = some 1 := by decide

theorem splitOnChar_ne_nil (sep : Char) (cs : List Char) : splitOnChar sep cs ≠ [] := by
  induction cs with
  | nil => simp [splitOnChar]
  | cons c rest ih =>
    unfold splitOnChar
    by_cases h : c = sep
    · simp [h]
    · simp only [h, if_false]
      cases hs : splitOnChar sep rest with
      | nil => simp
      | cons l ls => simp

theorem splitOnChar_not_mem {sep : Char} {l : List Char} (h : sep ∉ l) :
    splitOnChar sep l = [l] := by
  induction l with
  | nil => rfl
  | cons c rest ih =>
    have hc : c ≠ sep := fun hc => h (by simp [hc])
    have hr : sep ∉ rest := fun hr => h (by simp [hr])
    unfold splitOnChar
    simp only [hc, if_false, ih hr]

theorem splitOnChar_append {sep : Char} {l : List Char} (rest : List Char)
    (h : sep ∉ l) :
    splitOnChar sep (l ++ sep :: rest) = l :: splitOnChar sep rest := by
  induction l with
  | nil => simp [splitOnChar]
  | cons c tail ih =>
    have hc : c ≠ sep := fun hc => h (by simp [hc])
    have ht : sep ∉ tail := fun hr => h (by simp [hr])
    simp only [List.cons_append, splitOnChar, hc, if_false]
    show (match splitOnChar sep (tail ++ sep :: rest) with
      | [] => [[c]]
      | l :: ls => (c :: l) :: ls) = (c :: tail) :: splitOnChar sep rest
    rw [ih ht]

theorem parse_events_joinLines (ls : List (List Char))
    (h : ∀ l ∈ ls, '\n' ∉ l) :
    parse_events (joinLines ls) = ls.filterMap parseLine := by
  induction ls with
  | nil => rfl
  | cons l tail ih =>
    cases tail with
    | nil =>
      unfold parse_events joinLines
      rw [splitOnChar_not_mem (h l (by simp))]
    | cons l2 tl =>
      have h1 : '\n' ∉ l := h l (by simp)
      have h2 : ∀ x ∈ l2 :: tl, '\n' ∉ x := fun x hx => h x (by simp [hx])
      unfold parse_events joinLines
      rw [splitOnChar_append _ h1]
      simp only [List.filterMap_cons]
      have ih2 := ih h2
      unfold parse_events at ih2
      cases parseLine l with
      | none => simpa using ih2
      | some e => simpa using ih2

theorem ceilSqrtGo_spec (s : Nat) :
    ∀ fuel k, (∀ j, j < k → j * j < s) → s ≤ (k + fuel) * (k + fuel) →
      s ≤ ceilSqrtGo s k fuel * ceilSqrtGo s k fuel ∧
        ∀ j, j < ceilSqrtGo s k fuel → j * j < s := by
  intro fuel
  induction fuel with
  | zero =>
    intro k hlow hhigh
    refine ⟨?_, ?_⟩
    · simpa [ceilSqrtGo] using hhigh
    · exact hlow
  | succ n ih =>
    intro k hlow hhigh
    unfold ceilSqrtGo
    by_cases hk : s ≤ k * k
    · rw [if_pos hk]
      exact ⟨hk, hlow⟩
    · rw [if_neg hk]
      have hlow2 : ∀ j, j < k + 1 → j * j < s := by
        intro j hj
        rcases Nat.lt_succ_iff_lt_or_eq.mp hj with h | h
        · exact hlow j h
        · subst h; omega
      have hhigh2 : s ≤ (k + 1 + n) * (k + 1 + n) := by
        have heq : k + 1 + n = k + (n + 1) := by omega
        rw [heq]; exact hhigh
      exact ih (k + 1) hlow2 hhigh2

theorem ceilSqrt_spec (s : Nat) :
    s ≤ ceilSqrt s * ceilSqrt s ∧ ∀ j, j < ceilSqrt s → j * j < s := by
  have hs : s ≤ (0 + s) * (0 + s) := by
    cases s with
    | zero => simp
    | succ n => calc n + 1 ≤ (n + 1) * (n + 1) := Nat.le_mul_of_pos_left _ (by omega)
        _ = (0 + (n + 1)) * (0 + (n + 1)) := by ring
  exact ceilSqrtGo_spec s s 0 (by omega) hs

theorem gridWidth_ge (s : Nat) : 32 ≤ gridWidth s :=
  le_max_left _ _

theorem gridWidth_sq_ge (s : Nat) : s ≤ gridWidth s * gridWidth s := by
  have h := (ceilSqrt_spec s).1
  have hle : ceilSqrt s ≤ gridWidth s := le_max_right _ _
  calc s ≤ ceilSqrt s * ceilSqrt s := h
    _ ≤ gridWidth s * gridWidth s := Nat.mul_le_mul hle hle

theorem grid_size_ge (s : Nat) : s ≤ gridWidth s * gridHeight s := by
  have hw : 0 < gridWidth s := lt_of_lt_of_le (by omega) (gridWidth_ge s)
  have hdm := Nat.div_add_mod (s + gridWidth s - 1) (gridWidth s)
  have hmod : (s + gridWidth s - 1) % gridWidth s < gridWidth s :=
    Nat.mod_lt _ hw
  unfold gridHeight
  generalize hq : (s + gridWidth s - 1) / gridWidth s = q at hdm
  generalize hr : (s + gridWidth s - 1) % gridWidth s = r at hdm hmod
  generalize hp : gridWidth s * q = p at hdm
  omega

theorem grid_size_lt (s : Nat) : gridWidth s * gridHeight s < s + gridWidth s := by
  have hw : 0 < gridWidth s := lt_of_lt_of_le (by omega) (gridWidth_ge s)
  have hdm := Nat.div_add_mod (s + gridWidth s - 1) (gridWidth s)
  unfold gridHeight
  generalize hq : (s + gridWidth s - 1) / gridWidth s = q at hdm
  generalize hr : (s + gridWidth s - 1) % gridWidth s = r at hdm
  generalize hp : gridWidth s * q = p at hdm
  omega

theorem applyFrom_length (d : Int) (lo hi : Nat) :
    ∀ k l, (applyFrom d lo hi k l).length = l.length := by
  intro k l
  induction l generalizing k with
  | nil => rfl
  | cons c rest ih => simp [applyFrom, ih]

theorem applyEvent_length (minOff : Int) (e : Event) (grid : List Int) :
    (applyEvent minOff e grid).length = grid.length := by
  unfold applyEvent
  exact applyFrom_length _ _ _ _ _

theorem applyFrom_get? (d : Int) (lo hi : Nat) :
    ∀ (l : List Int) (k j : Nat),
      (applyFrom d lo hi k l).get? j =
        (l.get? j).map (fun c => if lo ≤ k + j ∧ k + j < hi then c + d else c) := by
  intro l
  induction l with
  | nil => intro k j; simp [applyFrom]
  | cons c rest ih =>
    intro k j
    cases j with
    | zero => simp [applyFrom]
    | succ n =>
      simp only [applyFrom, List.get?]
      rw [ih (k + 1) n]
      have : k + 1 + n = k + (n + 1) := by omega
      rw [this]

theorem renderFrom_get? (w h padding : Nat) :
    ∀ (l : List Int) (k j : Nat),
      (renderFrom w h padding k l).get? j =
        (l.get? j).map
          (fun c => renderPixel (decide (0 < padding ∧ w * h - padding ≤ k + j)) c) := by
  intro l
  induction l with
  | nil => intro k j; simp [renderFrom]
  | cons c rest ih =>
    intro k j
    cases j with
    | zero => simp [renderFrom]
    | succ n =>
      simp only [renderFrom, List.get?]
      rw [ih (k + 1) n]
      have : k + 1 + n = k + (n + 1) := by omega
      rw [this]

theorem applyFrom_cancel (d : Int) (lo hi : Nat) :
    ∀ (l : List Int) (k : Nat),
      applyFrom (-d) lo hi k (applyFrom d lo hi k l) = l := by
  intro l
  induction l with
  | nil => intro k; rfl
  | cons c rest ih =>
    intro k
    simp only [applyFrom]
    rw [ih (k + 1)]
    congr 1
    by_cases hk : lo ≤ k ∧ k < hi
    · rw [if_pos hk, if_pos hk]
      omega
    · rw [if_neg hk, if_neg hk]

theorem runEvents_length (w h s : Nat) (minOff : Int) :
    ∀ (evs : List Event) (idx : Nat) (grid : List Int),
      (runEvents w h s minOff idx grid evs).length = evs.length := by
  intro evs
  induction evs with
  | nil => intro idx grid; rfl
  | cons e rest ih => intro idx grid; simp [runEvents, ih]

theorem runEvents_get? (w h s : Nat) (minOff : Int) :
    ∀ (evs : List Event) (idx : Nat) (grid : List Int) (j : Nat) (f : Frame),
      (runEvents w h s minOff idx grid evs).get? j = some f →
        ∃ e g, evs.get? j = some e ∧ f = mkFrame w h s (idx + j) e g ∧
          g.length = grid.length := by
  intro evs
  induction evs with
  | nil => intro idx grid j f hf; simp [runEvents] at hf
  | cons e rest ih =>
    intro idx grid j f hf
    cases j with
    | zero =>
      refine ⟨e, applyEvent minOff e grid, rfl, ?_, applyEvent_length _ _ _⟩
      simpa [runEvents] using hf.symm
    | succ n =>
      simp only [runEvents, List.get?] at hf
      obtain ⟨e2, g, hget, hfeq, hlen⟩ := ih (idx + 1) (applyEvent minOff e grid) n f hf
      refine ⟨e2, g, hget, ?_, by rw [hlen, applyEvent_length]⟩
      have : idx + 1 + n = idx + (n + 1) := by omega
      rw [← this]; exact hfeq

theorem boundsFold_init_le (es : List Event) (a b : Int) :
    (es.foldl boundsStep (a, b)).1 ≤ a ∧ b ≤ (es.foldl boundsStep (a, b)).2 := by
  induction es generalizing a b with
  | nil => exact ⟨le_refl a, le_refl b⟩
  | cons e tail ih =>
    have h := ih (min a e.offset) (max b (e.offset + e.size))
    refine ⟨le_trans h.1 (min_le_left _ _), le_trans (le_max_left _ _) h.2⟩

theorem boundsFold_mem_le (es : List Event) (a b : Int) :
    ∀ ev ∈ es, (es.foldl boundsStep (a, b)).1 ≤ ev.offset ∧
      ev.offset + ev.size ≤ (es.foldl boundsStep (a, b)).2 := by
  induction es generalizing a b with
  | nil => intro ev h; exact absurd h (List.not_mem_nil ev)
  | cons e tail ih =>
    intro ev hmem
    rcases List.mem_cons.mp hmem with h | h
    · subst h
      have hinit := boundsFold_init_le tail (min a ev.offset) (max b (ev.offset + ev.size))
      exact ⟨le_trans hinit.1 (min_le_right _ _), le_trans (le_max_right _ _) hinit.2⟩
    · exact ih (min a e.offset) (max b (e.offset + e.size)) ev h

theorem boundsFold_fst_attained (es : List Event) (a b : Int) :
    (es.foldl boundsStep (a, b)).1 = a ∨
      ∃ ev ∈ es, (es.foldl boundsStep (a, b)).1 = ev.offset := by
  induction es generalizing a b with
  | nil => exact Or.inl rfl
  | cons e tail ih =>
    rcases ih (min a e.offset) (max b (e.offset + e.size)) with h | ⟨ev, hmem, hval⟩
    · rcases min_choice a e.offset with hm | hm
      · exact Or.inl (h.trans hm)
      · exact Or.inr ⟨e, by simp, h.trans hm⟩
    · exact Or.inr ⟨ev, by simp [hmem], hval⟩

theorem boundsFold_snd_attained (es : List Event) (a b : Int) :
    (es.foldl boundsStep (a, b)).2 = b ∨
      ∃ ev ∈ es, (es.foldl boundsStep (a, b)).2 = ev.offset + ev.size := by
  induction es generalizing a b with
  | nil => exact Or.inl rfl
  | cons e tail ih =>
    rcases ih (min a e.offset) (max b (e.offset + e.size)) with h | ⟨ev, hmem, hval⟩
    · rcases max_choice b (e.offset + e.size) with hm | hm
      · exact Or.inl (h.trans hm)
      · exact Or.inr ⟨e, by simp, h.trans hm⟩
    · exact Or.inr ⟨ev, by simp [hmem], hval⟩

theorem replayAux_cons {e : Event} {es : List Event} {lo hi : Int}
    (hb : calc_bounds (e :: es) = some (lo, hi)) :
    replayAux (e :: es) =
      if hi - lo < 0 then none
      else
        some (runEvents (gridWidth (hi - lo).toNat) (gridHeight (hi - lo).toNat)
          ((hi - lo).toNat) lo 0
          (List.replicate (gridWidth (hi - lo).toNat * gridHeight (hi - lo).toNat) 0)
          (e :: es)) := by
  unfold replayAux
  rw [hb]

theorem calc_bounds_cons (e : Event) (es : List Event) :
    calc_bounds (e :: es) =
      some ((es.foldl boundsStep (e.offset, e.offset + e.size)).1,
        (es.foldl boundsStep (e.offset, e.offset + e.size)).2) := by
  simp [calc_bounds]

theorem replayFrames_some_cons {cs : List Char} {fs : List Frame} {e : Event}
    {es : List Event} (h : replayFrames cs = some fs)
    (hp : parse_events cs = e :: es) :
    ∃ lo hi, calc_bounds (e :: es) = some (lo, hi) ∧ 0 ≤ hi - lo ∧
      fs = runEvents (gridWidth (hi - lo).toNat) (gridHeight (hi - lo).toNat)
        ((hi - lo).toNat) lo 0
        (List.replicate (gridWidth (hi - lo).toNat * gridHeight (hi - lo).toNat) 0)
        (e :: es) := by
  have hb := calc_bounds_cons e es
  unfold replayFrames at h
  rw [hp, replayAux_cons hb] at h
  by_cases hneg : (es.foldl boundsStep (e.offset, e.offset + e.size)).2 -
      (es.foldl boundsStep (e.offset, e.offset + e.size)).1 < 0
  · rw [if_pos hneg] at h
    exact absurd h (by simp)
  · rw [if_neg hneg] at h
    exact ⟨_, _, hb, by omega, (Option.some.inj h).symm⟩

theorem calc_bounds_le {e0 : Event} {es : List Event} {lo hi : Int}
    (hb : calc_bounds (e0 :: es) = some (lo, hi)) :
    ∀ ev ∈ e0 :: es, lo ≤ ev.offset ∧ ev.offset + ev.size ≤ hi := by
  have heq : es.foldl boundsStep (e0.offset, e0.offset + e0.size) = (lo, hi) := by
    simpa [calc_bounds] using hb
  intro ev hmem
  rcases List.mem_cons.mp hmem with h | h
  · subst h
    have hinit := boundsFold_init_le es ev.offset (ev.offset + ev.size)
    rw [heq] at hinit
    exact hinit
  · have := boundsFold_mem_le es e0.offset (e0.offset + e0.size) ev h
    rw [heq] at this
    exact this

/-- C7: for every non-empty event sequence, `calc_bounds` returns
`(min_offset, max_offset)` where `min_offset` is the minimum `offset` over
all events (a lower bound that is attained) and `max_offset` is the maximum
`offset + size` over all events (an upper bound that is attained); for the
events `(+, 0, 10)` and `(+, 20, 5)` this gives `(0, 25)`. -/
theorem calc_bounds_correct :
    (∀ (e0 : Event) (es : List Event),
      ∃ lo hi, calc_bounds (e0 :: es) = some (lo, hi) ∧
        (∀ ev ∈ e0 :: es, lo ≤ ev.offset ∧ ev.offset + ev.size ≤ hi) ∧
        (∃ ev ∈ e0 :: es, ev.offset = lo) ∧
        (∃ ev ∈ e0 :: es, ev.offset + ev.size = hi)) ∧
    calc_bounds [⟨'+', 0, 10⟩, ⟨'+', 20, 5⟩] = some (0, 25) := by
  refine ⟨?_, by decide⟩
  intro e0 es
  refine ⟨_, _, calc_bounds_cons e0 es, calc_bounds_le (calc_bounds_cons e0 es), ?_, ?_⟩
  · rcases boundsFold_fst_attained es e0.offset (e0.offset + e0.size) with h | ⟨ev, hmem, hval⟩
    · exact ⟨e0, by simp, h.symm⟩
    · exact ⟨ev, by simp [hmem], hval.symm⟩
  · rcases boundsFold_snd_attained es e0.offset (e0.offset + e0.size) with h | ⟨ev, hmem, hval⟩
    · exact ⟨e0, by simp, h.symm⟩
    · exact ⟨ev, by simp [hmem], hval.symm⟩

/-- Witness for `calc_bounds_correct` at the concrete event list of the
claim. -/
theorem calc_bounds_correct_witness :
    calc_bounds [⟨'+', 0, 10⟩, ⟨'+', 20, 5⟩] = some (0, 25) :=
  calc_bounds_correct.2

/-- C8: for every `allocations_size` `s`, the grid width is at least 32, is
the least value at least 32 whose square covers `s` (so it equals
`max 32 (ceil (sqrt s))`), the height is the least multiplier with
`width * height ≥ s` (so it equals `ceil (s / width)`), the padding is
`width * height - s`, and `width * height ≥ s` always; for `s = 1000` this
yields width 32, height 32 and padding 24. -/
theorem grid_layout_correct :
    (∀ s : Nat,
      32 ≤ gridWidth s ∧
      s ≤ gridWidth s * gridWidth s ∧
      (32 < gridWidth s → (gridWidth s - 1) * (gridWidth s - 1) < s) ∧
      s ≤ gridWidth s * gridHeight s ∧
      gridWidth s * gridHeight s < s + gridWidth s ∧
      gridPadding s = gridWidth s * gridHeight s - s) ∧
    gridWidth 1000 = 32 ∧ gridHeight 1000 = 32 ∧ gridPadding 1000 = 24 := by
  refine ⟨?_, by decide, by decide, by decide⟩
  intro s
  refine ⟨gridWidth_ge s, gridWidth_sq_ge s, ?_, grid_size_ge s, grid_size_lt s, rfl⟩
  intro h32
  have hcs : gridWidth s = ceilSqrt s := by
    rcases max_choice 32 (ceilSqrt s) with h | h
    · exfalso
      unfold gridWidth at h32
      omega
    · exact h
  rw [hcs]
  have hpos : 0 < ceilSqrt s := by
    rw [hcs] at h32
    omega
  exact (ceilSqrt_spec s).2 _ (by omega)

/-- Witness for `grid_layout_correct` at a size above the 32-wide floor. -/
theorem grid_layout_correct_witness :
    (gridWidth 2000 - 1) * (gridWidth 2000 - 1) < 2000 ∧
    2000 ≤ gridWidth 2000 * gridHeight 2000 := by
  have h := grid_layout_correct.1 2000
  exact ⟨h.2.2.1 (by decide), h.2.2.2.1⟩

/-- C9: applying an Alloc event `(+, o, s)` and then a Free event
`(-, o, s)` to any occupancy grid restores every counter to its value
before the Alloc: the two slice assignments of line 87 cover the same
normalised index range and add `+1` then `-1`. -/
theorem alloc_free_roundtrip (minOff o s : Int) (grid : List Int) :
    applyEvent minOff ⟨'-', o, s⟩ (applyEvent minOff ⟨'+', o, s⟩ grid) = grid := by
  simp only [applyEvent, applyFrom_length]
  have h1 : eventDelta ⟨'+', o, s⟩ = 1 := rfl
  have h2 : eventDelta ⟨'-', o, s⟩ = -1 := rfl
  rw [h1, h2]
  exact applyFrom_cancel 1 _ _ grid 0

/-- Witness for `alloc_free_roundtrip` on a concrete grid. -/
theorem alloc_free_roundtrip_witness :
    applyEvent 0 ⟨'-', 1, 2⟩ (applyEvent 0 ⟨'+', 1, 2⟩ [5, 6, 7, 8]) = [5, 6, 7, 8] :=
  alloc_free_roundtrip 0 1 2 [5, 6, 7, 8]

/-- C10: the parser produces one event per line matching the sign-offset-
size pattern (signed integers permitted), in input line order, and every
non-matching line is silently skipped; a log with one valid line and one
line with a non-numeric size parses to exactly one event. -/
theorem parse_events_per_line :
    (∀ ls : List (List Char), (∀ l ∈ ls, '\n' ∉ l) →
      parse_events (joinLines ls) = ls.filterMap parseLine) ∧
    parse_events ("+ 10 20\n- 5 abc".data) = [⟨'+', 10, 20⟩] :=
  ⟨parse_events_joinLines, by decide⟩

/-- Witness for `parse_events_per_line` on a three-line log with one
malformed line. -/
theorem parse_events_per_line_witness :
    parse_events (joinLines ["+ 1 2".data, "x 3".data, "- 4 -6".data]) =
      [⟨'+', 1, 2⟩, ⟨'-', 4, -6⟩] := by
  rw [parse_events_per_line.1 _ (by decide)]
  decide

theorem replayAux_nil : replayAux [] = some [] := rfl

theorem renderPixel_notPadded (c : Int) :
    renderPixel false c =
      (if c = 1 then free_colour else if c = 0 then used_colour
        else invalid_colour) := by
  simp only [renderPixel]
  by_cases h1 : c = 1
  · simp [h1]
  · by_cases h0 : c = 0
    · simp [h0, h1]
    · have hinv : c < 0 ∨ 1 < c := by omega
      simp [h1, h0, hinv]

/-- C1 (original claim refuted): in the frame for the single event
`(+, 0, 1)` followed by `(+, 0, 2)`, the non-padding unit 0 has counter 1
and is rendered with the green `free_colour`, not the dark-blue
`used_colour`, and the non-padding unit 1 has counter 0 and is rendered
with the dark-blue `used_colour`, not the green `free_colour`: the code
assigns green to counter 1 and dark blue to counter 0, the opposite of the
claim. -/
theorem classification_colors_cex :
    (frameAt ("+ 0 1\n+ 0 2".data) 0).freeDen = 2 ∧
    (frameAt ("+ 0 1\n+ 0 2".data) 0).occ.get? 0 = some 1 ∧
    (frameAt ("+ 0 1\n+ 0 2".data) 0).image.get? 0 = some free_colour ∧
    (frameAt ("+ 0 1\n+ 0 2".data) 0).occ.get? 1 = some 0 ∧
    (frameAt ("+ 0 1\n+ 0 2".data) 0).image.get? 1 = some used_colour ∧
    free_colour ≠ used_colour := by decide

/-- C1 (amended): for every frame, each non-padding grid unit with counter
value `c` is coloured green (`free_colour`) if `c == 1`, dark blue
(`used_colour`) if `c == 0`, and red (`invalid_colour`) otherwise. -/
theorem classification_colors_amended :
    ∀ (cs : List Char) (fs : List Frame), replayFrames cs = some fs →
      ∀ f ∈ fs, ∀ (k : Nat) (c : Int), k < f.freeDen → f.occ.get? k = some c →
        f.image.get? k = some (if c = 1 then free_colour
          else if c = 0 then used_colour else invalid_colour) := by
  intro cs fs h f hf k c hk hc
  cases hp : parse_events cs with
  | nil =>
    unfold replayFrames at h
    rw [hp, replayAux_nil] at h
    have hfs := Option.some.inj h
    subst hfs
    exact absurd hf (List.not_mem_nil f)
  | cons e es =>
    obtain ⟨lo, hi, hb, hpos, hfs⟩ := replayFrames_some_cons h hp
    subst hfs
    obtain ⟨j, hj⟩ := List.mem_iff_get?.mp hf
    obtain ⟨e2, g, hget, hfeq, hlen⟩ := runEvents_get? _ _ _ _ _ _ _ _ _ hj
    subst hfeq
    simp only [mkFrame] at hk hc ⊢
    rw [List.length_replicate] at hlen
    have hsle : (hi - lo).toNat ≤ gridWidth (hi - lo).toNat * gridHeight (hi - lo).toNat :=
      grid_size_ge _
    unfold renderImage
    rw [renderFrom_get? _ _ _ g 0 k, hc]
    have hcond : ¬ (0 < gridWidth (hi - lo).toNat * gridHeight (hi - lo).toNat - (hi - lo).toNat ∧
        gridWidth (hi - lo).toNat * gridHeight (hi - lo).toNat -
          (gridWidth (hi - lo).toNat * gridHeight (hi - lo).toNat - (hi - lo).toNat) ≤ 0 + k) := by
      omega
    rw [decide_eq_false hcond, Option.map_some', renderPixel_notPadded]

/-- Witness for `classification_colors_amended`: in the run of
`+ 0 1` then `+ 0 2`, unit 0 (counter 1) is green. -/
theorem classification_colors_amended_witness :
    (frameAt ("+ 0 1\n+ 0 2".data) 0).image.get? 0 = some free_colour := by
  have h := classification_colors_amended ("+ 0 1\n+ 0 2".data)
    (framesOf ("+ 0 1\n+ 0 2".data)) (by decide)
    (frameAt ("+ 0 1\n+ 0 2".data) 0) (by decide) 0 1 (by decide) (by decide)
  simpa using h

/-- C2 (original claim refuted): for the input whose single event is
`(+, 0, 10)` with `allocations_size = 10`, the frame produced after the
event reports a Free fraction of `1.0`, not `0.0`: the code counts the
units with counter exactly 1 (all ten of them) as free. -/
theorem free_fraction_cex :
    parse_events ("+ 0 10".data) = [⟨'+', 0, 10⟩] ∧
    (framesOf ("+ 0 10".data)).length = 1 ∧
    (frameAt ("+ 0 10".data) 0).freeDen = 10 ∧
    freeFracAt ("+ 0 10".data) 0 = 1 ∧ (1 : Rat) ≠ 0 := by
  refine ⟨by decide, by decide, by decide, ?_, by norm_num⟩
  have h1 : (frameAt ("+ 0 10".data) 0).freeNum = 10 := by decide
  have h2 : (frameAt ("+ 0 10".data) 0).freeDen = 10 := by decide
  unfold freeFracAt
  rw [h1, h2]
  norm_num

/-- C2 (amended): the Free percentage of each frame is the number of grid
units with counter value exactly 1 divided by `allocations_size`; for the
single event `(+, 0, 10)` with `allocations_size = 10` the frame after the
event reports a Free fraction of `1.0`. -/
theorem free_fraction_amended :
    (∀ (cs : List Char) (fs : List Frame), replayFrames cs = some fs →
      ∀ f ∈ fs, f.freeNum = countFree f.occ) ∧
    freeFracAt ("+ 0 10".data) 0 = 1 ∧
    (frameAt ("+ 0 10".data) 0).freeDen = 10 := by
  refine ⟨?_, ?_, by decide⟩
  · intro cs fs h f hf
    cases hp : parse_events cs with
    | nil =>
      unfold replayFrames at h
      rw [hp, replayAux_nil] at h
      have hfs := Option.some.inj h
      subst hfs
      exact absurd hf (List.not_mem_nil f)
    | cons e es =>
      obtain ⟨lo, hi, hb, hpos, hfs⟩ := replayFrames_some_cons h hp
      subst hfs
      obtain ⟨j, hj⟩ := List.mem_iff_get?.mp hf
      obtain ⟨e2, g, hget, hfeq, hlen⟩ := runEvents_get? _ _ _ _ _ _ _ _ _ hj
      subst hfeq
      rfl
  · have h1 : (frameAt ("+ 0 10".data) 0).freeNum = 10 := by decide
    have h2 : (frameAt ("+ 0 10".data) 0).freeDen = 10 := by decide
    unfold freeFracAt
    rw [h1, h2]
    norm_num

/-- Witness for `free_fraction_amended` on the concrete single-event
input. -/
theorem free_fraction_amended_witness :
    (frameAt ("+ 0 10".data) 0).freeNum =
      countFree ((frameAt ("+ 0 10".data) 0).occ) :=
  free_fraction_amended.1 ("+ 0 10".data) (framesOf ("+ 0 10".data))
    (by decide) (frameAt ("+ 0 10".data) 0) (by decide)

/-- C3: for the single zero-size event `(+, 5, 0)` the parsed event list is
non-empty, `allocations_size = 0`, and the run still produces a frame whose
Free-percentage denominator is 0: the division of line 103 is reached with
a zero divisor — nothing short-circuits it (numpy evaluates the 0/0 as nan
and the frame text renders it). -/
theorem zero_size_division_reached :
    parse_events ("+ 5 0".data) = [⟨'+', 5, 0⟩] ∧
    (framesOf ("+ 5 0".data)).length = 1 ∧
    (frameAt ("+ 5 0".data) 0).freeDen = 0 := by decide

/-- C4 (original claim refuted): the frame for the single `+` event
`(+, 16, 4)` carries the operation label `free ` and the frame for the
single `-` event `(-, 16, 4)` carries the label `alloc`: line 105 labels
`+` events `free ` and `-` events `alloc`, the opposite of the claim. -/
theorem operation_label_cex :
    (frameAt ("+ 16 4".data) 0).opLabel = "free ".data ∧
    (frameAt ("- 16 4".data) 0).opLabel = "alloc".data ∧
    "free ".data ≠ "alloc".data := by decide

/-- C4 (amended): each frame's operation description reflects its event: a
`+` event is labelled `free ` and a `-` event is labelled `alloc`, and the
description carries the event's offset and size (rendered as 8-digit hex
and decimal by line 104). -/
theorem operation_label_amended :
    ∀ (cs : List Char) (fs : List Frame), replayFrames cs = some fs →
      ∀ (i : Nat) (f : Frame) (e : Event), fs.get? i = some f →
        (parse_events cs).get? i = some e →
        f.eventIdx = i ∧
        f.opLabel = (if e.mode = '+' then "free ".data else "alloc".data) ∧
        f.opOffset = e.offset ∧ f.opSize = e.size := by
  intro cs fs h i f e hget hpe
  cases hp : parse_events cs with
  | nil =>
    rw [hp] at hpe
    simp at hpe
  | cons e0 es =>
    obtain ⟨lo, hi, hb, hpos, hfs⟩ := replayFrames_some_cons h hp
    subst hfs
    obtain ⟨e2, g, hget2, hfeq, hlen⟩ := runEvents_get? _ _ _ _ _ _ _ _ _ hget
    rw [hp, hget2] at hpe
    have he := Option.some.inj hpe
    subst he
    subst hfeq
    refine ⟨by simp [mkFrame], rfl, rfl, rfl⟩

/-- Witness for `operation_label_amended` on a single `-` event. -/
theorem operation_label_amended_witness :
    (frameAt ("- 16 4".data) 0).eventIdx = 0 ∧
    (frameAt ("- 16 4".data) 0).opLabel = "alloc".data ∧
    (frameAt ("- 16 4".data) 0).opOffset = 16 ∧
    (frameAt ("- 16 4".data) 0).opSize = 4 := by
  have h := operation_label_amended ("- 16 4".data) (framesOf ("- 16 4".data))
    (by decide) 0 (frameAt ("- 16 4".data) 0) ⟨'-', 16, 4⟩ (by decide) (by decide)
  obtain ⟨h1, h2, h3, h4⟩ := h
  rw [if_neg (by decide : ¬ ('-' : Char) = '+')] at h2
  exact ⟨h1, h2, h3, h4⟩

/-- C5 (original claim refuted): for the parsed event list of
`+ 0 10` and `+ 5 -20` (a complete run, `allocations_size = 10`), the
second event's slice has a negative stop index, which numpy wraps to the
end of the `width * height` array: the update touches index 10, outside
`[0, 10)`, and indeed leaves counter 1 there (frame 1), corrupting the
padding region. -/
theorem index_range_cex :
    parse_events ("+ 0 10\n+ 5 -20".data) = [⟨'+', 0, 10⟩, ⟨'+', 5, -20⟩] ∧
    calc_bounds [⟨'+', 0, 10⟩, ⟨'+', 5, -20⟩] = some (0, 10) ∧
    (frameAt ("+ 0 10\n+ 5 -20".data) 1).freeDen = 10 ∧
    eventTouches ((frameAt ("+ 0 10\n+ 5 -20".data) 1).occ.length) 0
      ⟨'+', 5, -20⟩ 10 ∧
    ¬ ((10 : Int) < 10 - 0) ∧
    (frameAt ("+ 0 10\n+ 5 -20".data) 1).occ.get? 10 = some 1 := by decide

/-- C5 (amended): provided every event's size is non-negative, each event's
applied index range lies within `[0, allocations_size)` (indices are
non-negative by construction): every touched index `k` satisfies
`k < max_offset - min_offset` for any array length, and indices the slice
does not touch keep their counter. -/
theorem index_range_amended :
    (∀ (e0 : Event) (es : List Event) (lo hi : Int),
      calc_bounds (e0 :: es) = some (lo, hi) →
      (∀ ev ∈ e0 :: es, 0 ≤ ev.size) →
      ∀ ev ∈ e0 :: es, ∀ (len k : Nat), eventTouches len lo ev k →
        (k : Int) < hi - lo) ∧
    (∀ (minOff : Int) (e : Event) (grid : List Int) (k : Nat),
      ¬ eventTouches grid.length minOff e k →
      (applyEvent minOff e grid).get? k = grid.get? k) := by
  constructor
  · intro e0 es lo hi hb hsz ev hev len k ht
    obtain ⟨hlo, hhi⟩ := calc_bounds_le hb ev hev
    have hs0 : 0 ≤ ev.size := hsz ev hev
    unfold eventTouches sliceIdx at ht
    have hstop : ¬ (ev.offset + ev.size - lo < 0) := by omega
    rw [if_neg hstop] at ht
    have h3 : k < (ev.offset + ev.size - lo).toNat :=
      lt_of_lt_of_le ht.2 (min_le_left _ _)
    omega
  · intro minOff e grid k hnt
    unfold applyEvent
    rw [applyFrom_get?]
    have hnt2 : ¬ (sliceIdx grid.length (e.offset - minOff) ≤ 0 + k ∧
        0 + k < sliceIdx grid.length (e.offset + e.size - minOff)) := by
      simpa [eventTouches] using hnt
    cases hgk : grid.get? k with
    | none => rfl
    | some c => rw [Option.map_some', if_neg hnt2]

/-- Witness for `index_range_amended` at the events of the bounds claim:
the second event touches index 24 and 24 is below the size 25. -/
theorem index_range_amended_witness :
    eventTouches 1024 0 ⟨'+', 20, 5⟩ 24 ∧ ((24 : Nat) : Int) < 25 - 0 := by
  refine ⟨by decide, ?_⟩
  exact index_range_amended.1 ⟨'+', 0, 10⟩ [⟨'+', 20, 5⟩] 0 25 (by decide)
    (by decide) ⟨'+', 20, 5⟩ (by decide) 1024 24 (by decide)

/-- C6 (original claim refuted): the log `+ 0 -5` contains exactly one
well-formed event line, yet the run produces no frame at all:
`allocations_size = -5` is negative, `allocations_size**0.5` is a complex
number and `ceil` of it raises `TypeError` before the first frame. -/
theorem frame_count_cex :
    parse_events ("+ 0 -5".data) = [⟨'+', 0, -5⟩] ∧
    replayFrames ("+ 0 -5".data) = none := by decide

/-- C6 (amended): an input with no well-formed event line yields zero
frames (and no canvas is built); whenever the run completes, it yields
exactly one frame per parsed event, in event order; and the run completes
whenever the computed bounds satisfy `min_offset ≤ max_offset` (in
particular whenever every size is non-negative). -/
theorem frame_count_amended :
    (∀ cs : List Char, parse_events cs = [] → replayFrames cs = some []) ∧
    (∀ (cs : List Char) (fs : List Frame), replayFrames cs = some fs →
      fs.length = (parse_events cs).length) ∧
    (∀ (cs : List Char) (e : Event) (es : List Event) (lo hi : Int),
      parse_events cs = e :: es → calc_bounds (e :: es) = some (lo, hi) →
      lo ≤ hi → ∃ fs, replayFrames cs = some fs) ∧
    (∀ (cs : List Char) (fs : List Frame) (i : Nat) (f : Frame),
      replayFrames cs = some fs → fs.get? i = some f → f.eventIdx = i) := by
  refine ⟨?_, ?_, ?_, ?_⟩
  · intro cs hp
    unfold replayFrames
    rw [hp]
    exact replayAux_nil
  · intro cs fs h
    cases hp : parse_events cs with
    | nil =>
      unfold replayFrames at h
      rw [hp, replayAux_nil] at h
      have hfs := Option.some.inj h
      subst hfs
      rfl
    | cons e es =>
      obtain ⟨lo, hi, hb, hpos, hfs⟩ := replayFrames_some_cons h hp
      subst hfs
      exact runEvents_length _ _ _ _ _ _ _
  · intro cs e es lo hi hp hb hle
    refine ⟨runEvents (gridWidth (hi - lo).toNat) (gridHeight (hi - lo).toNat)
      ((hi - lo).toNat) lo 0
      (List.replicate (gridWidth (hi - lo).toNat * gridHeight (hi - lo).toNat) 0)
      (e :: es), ?_⟩
    unfold replayFrames
    rw [hp, replayAux_cons hb, if_neg (show ¬ hi - lo < 0 by omega)]
  · intro cs fs i f h hget
    cases hp : parse_events cs with
    | nil =>
      unfold replayFrames at h
      rw [hp, replayAux_nil] at h
      have hfs := Option.some.inj h
      subst hfs
      simp at hget
    | cons e es =>
      obtain ⟨lo, hi, hb, hpos, hfs⟩ := replayFrames_some_cons h hp
      subst hfs
      obtain ⟨e2, g, hget2, hfeq, hlen⟩ := runEvents_get? _ _ _ _ _ _ _ _ _ hget
      subst hfeq
      simp [mkFrame]

/-- Witness for `frame_count_amended`: a two-event log yields two
frames. -/
theorem frame_count_amended_witness :
    (framesOf ("+ 0 2\n- 0 2".data)).length = 2 := by
  obtain ⟨fs, hfs⟩ := frame_count_amended.2.2.1 ("+ 0 2\n- 0 2".data)
    ⟨'+', 0, 2⟩ [⟨'-', 0, 2⟩] 0 2 (by decide) (by decide) (by decide)
  have hlen := frame_count_amended.2.1 _ fs hfs
  unfold framesOf
  rw [hfs, Option.getD_some, hlen]
  decide
